import Mathlib

/-!
Verification development for the tantabus evaluation core
(src/engine/src/eval/eval.rs and src/engine/src/nnue/mod.rs).

The board/move-generation layer (cozy_chess) is an external collaborator of
the core under verification; it is embedded here as pure set-valued attack
functions over `Fin 64` squares, matching cozy_chess semantics (bitboards
are sets of squares, iterated in ascending square order).

Machine integers: Rust release-mode arithmetic on i16 wraps; we model i16
values as `Int` together with the explicit wrap `wrap16` at every point the
source stores into an i16 (NNUE accumulator cells, the `as i16` cast in
`EvalContext::eval`).  `u32`/`usize` quantities (`game_phase`, NNUE
material) are modelled as `Nat`; Rust unsigned division is Nat division and
`u32::saturating_sub` is Nat subtraction.  Rust signed division truncates
towards zero, which is `Int.tdiv`.
-/

/-- Wrap an unbounded integer to the value the low 16 bits represent as a
two's complement i16 (the effect of Rust's wrapping i16 arithmetic / the
`as i16` cast). -/
def wrap16 (x : Int) : Int := (x + 32768) % 65536 - 32768

/-! ### Colors, pieces, squares (cozy_chess) -/

inductive Color where
  | White
  | Black
deriving DecidableEq, Fintype, Repr

/-- The `!color` operator of cozy_chess. -/
def Color.other : Color → Color
  | .White => .Black
  | .Black => .White

/-- The `color as usize` cast of cozy_chess (`White = 0`, `Black = 1`). -/
def Color.toNat : Color → Nat
  | .White => 0
  | .Black => 1

/-- `Color::ALL`, in cozy_chess order. -/
def Color.ALL : List Color := [.White, .Black]

inductive Piece where
  | Pawn
  | Knight
  | Bishop
  | Rook
  | Queen
  | King
deriving DecidableEq, Fintype, Repr

/-- The `piece as usize` cast of cozy_chess (`Pawn = 0`, ..., `King = 5`). -/
def Piece.toNat : Piece → Nat
  | .Pawn => 0
  | .Knight => 1
  | .Bishop => 2
  | .Rook => 3
  | .Queen => 4
  | .King => 5

/-- `Piece::ALL`, in cozy_chess order. -/
def Piece.ALL : List Piece := [.Pawn, .Knight, .Bishop, .Rook, .Queen, .King]

/-- cozy_chess squares: rank-major index, `a1 = 0`, `b1 = 1`, ..., `h8 = 63`. -/
abbrev Square := Fin 64

/-- File (column) of a square, `a = 0` ... `h = 7`. -/
def Square.file (sq : Square) : Nat := sq.val % 8

/-- Rank (row) of a square, rank 1 = 0 ... rank 8 = 7. -/
def Square.rank (sq : Square) : Nat := sq.val / 8

/-- `Square::new(file, rank)` of cozy_chess. -/
def Square.new (f r : Fin 8) : Square := ⟨r.val * 8 + f.val, by omega⟩

/-- `Square::flip_rank` of cozy_chess: mirror the square vertically. -/
def Square.flipRank (sq : Square) : Square :=
  ⟨(7 - sq.val / 8) * 8 + sq.val % 8, by omega⟩

/-- A cozy_chess bitboard, embedded as the set of squares whose bits are set. -/
abbrev Bitboard := Finset Square

/-- `BitBoard::popcnt`. -/
def Bitboard.popcnt (bb : Bitboard) : Nat := bb.card

/-- Bitboard iteration order of cozy_chess: ascending square index. -/
def Bitboard.squaresList (bb : Bitboard) : List Square :=
  (List.finRange 64).filter (· ∈ bb)

/-- Bitboard xor (`^` in cozy_chess): symmetric difference of the square sets. -/
def Bitboard.bbXor (a b : Bitboard) : Bitboard := (a \ b) ∪ (b \ a)

/-- The full-file bitboard `File::bitboard`. -/
def fileBitboard (f : Nat) : Bitboard := Finset.univ.filter (fun s => s.file = f)

def sameFile (a b : Square) : Prop := a.file = b.file
def sameRank (a b : Square) : Prop := a.rank = b.rank
def sameDiag (a b : Square) : Prop :=
  (a.rank : Int) - (a.file : Int) = (b.rank : Int) - (b.file : Int)
def sameAntiDiag (a b : Square) : Prop := a.rank + a.file = b.rank + b.file

instance (a b : Square) : Decidable (sameFile a b) := by unfold sameFile; infer_instance
instance (a b : Square) : Decidable (sameRank a b) := by unfold sameRank; infer_instance
instance (a b : Square) : Decidable (sameDiag a b) := by unfold sameDiag; infer_instance
instance (a b : Square) : Decidable (sameAntiDiag a b) := by unfold sameAntiDiag; infer_instance

/-- `z` lies strictly between `x` and `y` (in either direction). -/
def strictBetween (x y z : Nat) : Prop := (x < z ∧ z < y) ∨ (y < z ∧ z < x)

instance (x y z : Nat) : Decidable (strictBetween x y z) := by
  unfold strictBetween; infer_instance

/-- `cozy_chess::get_between_rays`: the squares strictly between `a` and `b`
when they share a file, rank, diagonal or anti-diagonal; empty otherwise. -/
def get_between_rays (a b : Square) : Bitboard :=
  Finset.univ.filter (fun s =>
    (sameFile a b ∧ sameFile a s ∧ strictBetween a.rank b.rank s.rank) ∨
    (sameRank a b ∧ sameRank a s ∧ strictBetween a.file b.file s.file) ∨
    (sameDiag a b ∧ sameDiag a s ∧ strictBetween a.file b.file s.file) ∨
    (sameAntiDiag a b ∧ sameAntiDiag a s ∧ strictBetween a.file b.file s.file))

/-- `cozy_chess::get_knight_moves`. -/
def get_knight_moves (sq : Square) : Bitboard :=
  Finset.univ.filter (fun s =>
    let df := ((s.file : Int) - (sq.file : Int)).natAbs
    let dr := ((s.rank : Int) - (sq.rank : Int)).natAbs
    (df = 1 ∧ dr = 2) ∨ (df = 2 ∧ dr = 1))

/-- `cozy_chess::get_king_moves`. -/
def get_king_moves (sq : Square) : Bitboard :=
  Finset.univ.filter (fun s =>
    let df := ((s.file : Int) - (sq.file : Int)).natAbs
    let dr := ((s.rank : Int) - (sq.rank : Int)).natAbs
    df ≤ 1 ∧ dr ≤ 1 ∧ s ≠ sq)

/-- Forward rank direction of a pawn of the given color. -/
def pawnDir : Color → Int
  | .White => 1
  | .Black => -1

/-- `cozy_chess::get_pawn_attacks`: the two forward diagonal squares. -/
def get_pawn_attacks (sq : Square) (c : Color) : Bitboard :=
  Finset.univ.filter (fun s =>
    (s.rank : Int) = (sq.rank : Int) + pawnDir c ∧
    ((s.file : Int) - (sq.file : Int)).natAbs = 1)

/-- Starting rank of pawns of the given color (rank index). -/
def pawnStartRank : Color → Nat
  | .White => 1
  | .Black => 6

/-- `cozy_chess::get_pawn_quiets`: the single push if its target is empty,
plus the double push from the starting rank if both squares are empty. -/
def get_pawn_quiets (sq : Square) (c : Color) (occ : Bitboard) : Bitboard :=
  Finset.univ.filter (fun s =>
    s.file = sq.file ∧ s ∉ occ ∧
    ((s.rank : Int) = (sq.rank : Int) + pawnDir c ∨
     ((s.rank : Int) = (sq.rank : Int) + 2 * pawnDir c ∧ sq.rank = pawnStartRank c ∧
      ∀ m : Square, m.file = sq.file → (m.rank : Int) = (sq.rank : Int) + pawnDir c →
        m ∉ occ)))

/-- `cozy_chess::get_rook_moves`: sliding attacks along files and ranks,
up to and including the first occupied square in each direction. -/
def get_rook_moves (sq : Square) (occ : Bitboard) : Bitboard :=
  Finset.univ.filter (fun s =>
    s ≠ sq ∧ (sameFile sq s ∨ sameRank sq s) ∧ get_between_rays sq s ∩ occ = ∅)

/-- `cozy_chess::get_bishop_moves`: sliding attacks along diagonals,
up to and including the first occupied square in each direction. -/
def get_bishop_moves (sq : Square) (occ : Bitboard) : Bitboard :=
  Finset.univ.filter (fun s =>
    s ≠ sq ∧ (sameDiag sq s ∨ sameAntiDiag sq s) ∧ get_between_rays sq s ∩ occ = ∅)

/-! ### Board (cozy_chess `Board`, the read-only query capability) -/

/-- The board query capability consumed by the evaluators: per-color and
per-piece occupancy bitboards plus the side to move. -/
structure Board where
  colorBB : Color → Bitboard
  pieceBB : Piece → Bitboard
  side_to_move : Color

/-- `Board::colors`. -/
def Board.colors (b : Board) (c : Color) : Bitboard := b.colorBB c

/-- `Board::pieces`. -/
def Board.pieces (b : Board) (p : Piece) : Bitboard := b.pieceBB p

/-- `Board::occupied`. -/
def Board.occupied (b : Board) : Bitboard := b.colors .White ∪ b.colors .Black

/-- `Board::king`: the square of the given side's king (first set square of
the king bitboard; a legal board has exactly one). -/
def Board.king (b : Board) (c : Color) : Square :=
  (Bitboard.squaresList (b.colors c ∩ b.pieces .King)).headD ⟨0, by omega⟩

/-! ### Game phase (src/engine/src/eval/eval.rs, `game_phase`) -/

def MAX_PHASE : Nat := 256

/-- `INIT_PHASE` of the `game_phase_fn!` expansion:
`(8*0 + 2*1 + 2*1 + 2*2 + 1*4) * 2 = 24`. -/
def INIT_PHASE : Nat := (8 * 0 + 2 * 1 + 2 * 1 + 2 * 2 + 1 * 4) * 2

/-- `game_phase` of eval.rs: weighted live non-pawn material subtracted
(saturating) from the full-material baseline, rescaled to 0..256 with
rounding.  `u32` arithmetic is in-range here, so `Nat` is exact;
`u32::saturating_sub` is `Nat` subtraction. -/
def game_phase (b : Board) : Nat :=
  let inv_phase :=
    (b.pieces .Pawn).popcnt * 0 +
    (b.pieces .Knight).popcnt * 1 +
    (b.pieces .Bishop).popcnt * 1 +
    (b.pieces .Rook).popcnt * 2 +
    (b.pieces .Queen).popcnt * 4
  let phase := INIT_PHASE - inv_phase
  (phase * MAX_PHASE + INIT_PHASE / 2) / INIT_PHASE

/-! ### NNUE (src/engine/src/nnue/mod.rs) -/

def FEATURES : Nat := 768
def FT_OUT : Nat := 32
def L1_OUT : Nat := 16
def ACTIVATION_RANGE : Int := 127
def WEIGHT_SCALE : Int := 64
def OUTPUT_SCALE : Int := 203

/-- Modelled from the spec: the `BitLinear`/`Linear` layer containers of
nnue/layers.rs are not under src/.  Per the spec the model holds a
feature-transformer layer (a weight row of width `FT_OUT = 32` per each of
768 features, plus learned per-output biases) and one linear layer of input
width 64 with 16 output buckets (int8 weights, i32 bias).  Weight values
(model.txt) are left abstract: every theorem quantifies over them. -/
structure Nnue where
  ftWeight : Fin 768 → Fin 32 → Int
  ftBias : Fin 32 → Int
  l1Weight : Fin 16 → Fin 64 → Int
  l1Bias : Fin 16 → Int

/-- `NnueState` of nnue/mod.rs: one 16-bit accumulator per color
perspective plus the running material count (`usize`). -/
structure NnueState where
  accumulator : Color → Fin 32 → Int
  material : Nat

/-- `feature` of nnue/mod.rs: flatten (color, piece, square) to
`(color*6 + piece)*64 + square`, flipping rank and swapping color when the
perspective is Black. -/
def feature (perspective : Color) (color : Color) (piece : Piece) (square : Square) : Nat :=
  let color := if perspective = .Black then color.other else color
  let square := if perspective = .Black then square.flipRank else square
  (color.toNat * 6 + piece.toNat) * 64 + square.val

theorem feature_lt (perspective color : Color) (piece : Piece) (square : Square) :
    feature perspective color piece square < 768 := by
  unfold feature
  cases perspective <;> cases color <;> cases piece <;>
    simp [Color.other, Color.toNat, Piece.toNat, Square.flipRank] <;> omega

/-- The feature index as a `Fin 768` (in Rust a `usize` used to index the
feature-transformer rows; `feature_lt` shows the access is in bounds). -/
def featureFin (perspective color : Color) (piece : Piece) (square : Square) : Fin 768 :=
  ⟨feature perspective color piece square, feature_lt perspective color piece square⟩

/-- `VALUES` of nnue/mod.rs. -/
def VALUES : Piece → Nat
  | .Pawn => 1
  | .Knight => 3
  | .Bishop => 3
  | .Rook => 5
  | .Queen => 8
  | .King => 0

/-- Modulus of Rust `usize` arithmetic (64-bit target). -/
def USIZE : Nat := 2 ^ 64

/-- `Nnue::new_state`: both perspectives' accumulators start from the
feature transformer's learned bias (`ft.empty`, modelled from the spec:
"initialized from the feature-transformer's learned bias"), material 0. -/
def Nnue.new_state (m : Nnue) : NnueState :=
  { accumulator := fun _ i => m.ftBias i, material := 0 }

/-- `NnueState::add`: add the piece's material value, and for both
perspectives add the feature's weight row into the accumulator
(`ft.add`, modelled from the spec: elementwise i16 addition of the row). -/
def NnueState.add (m : Nnue) (st : NnueState) (color : Color) (piece : Piece)
    (square : Square) : NnueState :=
  { material := (st.material + VALUES piece) % USIZE,
    accumulator := fun perspective i =>
      wrap16 (st.accumulator perspective i +
        m.ftWeight (featureFin perspective color piece square) i) }

/-- `NnueState::sub`: subtract the piece's material value (wrapping `usize`
subtraction), and for both perspectives subtract the feature's weight row
from the accumulator (`ft.sub`, modelled from the spec: the exact inverse,
elementwise i16 subtraction). -/
def NnueState.sub (m : Nnue) (st : NnueState) (color : Color) (piece : Piece)
    (square : Square) : NnueState :=
  { material := (st.material + (USIZE - VALUES piece)) % USIZE,
    accumulator := fun perspective i =>
      wrap16 (st.accumulator perspective i -
        m.ftWeight (featureFin perspective color piece square) i) }

/-- Modelled from the spec: `clipped_relu` of nnue/ops.rs is not under
src/; per the spec it clips each accumulator entry to
`[0, ACTIVATION_RANGE]` (clipped ReLU). -/
def clipped_relu (lo hi : Int) (v : Fin 32 → Int) : Fin 32 → Int :=
  fun i => min (max (v i) lo) hi

/-- Modelled from the spec: `Linear::activate` of nnue/layers.rs is not
under src/; per the spec it is the dot product of the 64-wide input against
the selected bucket's int8 weight row, accumulated in a wider integer, plus
the bucket's bias. -/
def Nnue.l1Activate (m : Nnue) (inputs : Fin 64 → Int) (bucket : Fin 16) : Int :=
  (List.finRange 64).foldl (fun acc j => acc + m.l1Weight bucket j * inputs j)
    (m.l1Bias bucket)

/-- `NnueState::evaluate` of nnue/mod.rs: clip both perspectives, side to
move first, pick the material bucket, run the linear layer, rescale.
The two Rust `i32` divisions truncate towards zero (`Int.tdiv`). -/
def NnueState.evaluate (m : Nnue) (st : NnueState) (side_to_move : Color) : Int :=
  let us := clipped_relu 0 ACTIVATION_RANGE (st.accumulator side_to_move)
  let them := clipped_relu 0 ACTIVATION_RANGE (st.accumulator side_to_move.other)
  let inputs : Fin 64 → Int := fun j =>
    if h : j.val < 32 then us ⟨j.val, h⟩ else them ⟨j.val - 32, by omega⟩
  let bucket : Fin 16 := ⟨min 15 (st.material * 16 / 76), by omega⟩
  let output := m.l1Activate inputs bucket
  ((output * OUTPUT_SCALE).tdiv WEIGHT_SCALE).tdiv ACTIVATION_RANGE


/-! ### Spec-side NNUE forward pass (for the refinement claim C4) -/

/-- Written from the spec's words (section 4.5): clip each perspective's
accumulator to `[0, ACTIVATION_RANGE]`, concatenate the side to move's
clipped vector before the opponent's, select the bucket
`min(15, material*16/76)`, take the bucket's dot product plus bias, and
rescale by `OUTPUT_SCALE / (WEIGHT_SCALE * ACTIVATION_RANGE)` in integer
arithmetic. -/
def NnueState.evaluateSpec (m : Nnue) (st : NnueState) (side_to_move : Color) : Int :=
  let clip : Int → Int := fun x => max 0 (min ACTIVATION_RANGE x)
  let us : Fin 32 → Int := fun i => clip (st.accumulator side_to_move i)
  let them : Fin 32 → Int := fun i => clip (st.accumulator side_to_move.other i)
  let inputs : Fin 64 → Int := fun j =>
    if h : j.val < 32 then us ⟨j.val, h⟩ else them ⟨j.val - 32, by omega⟩
  let bucket : Fin 16 := ⟨min 15 (st.material * 16 / 76), by omega⟩
  let output := m.l1Bias bucket + ∑ j : Fin 64, m.l1Weight bucket j * inputs j
  (output * OUTPUT_SCALE).tdiv (WEIGHT_SCALE * ACTIVATION_RANGE)

/-! ### Handcrafted evaluator (src/engine/src/eval/eval.rs) -/

/-- Modelled from the spec: phased_eval.rs is not under src/.  A
`PhasedEval` is a (midgame, endgame) pair of 16-bit values with
componentwise addition, subtraction and integer scaling; the values are
modelled as unbounded integers (the only i16 narrowing visible in the
seen code, the `as i16` cast in `EvalContext::eval`, is modelled there
explicitly with `wrap16`). -/
abbrev PhasedEval := Int × Int

/-- `EvalTerms` of eval.rs: the generic bag of evaluation tables.  The
concrete table containers (pst.rs, mob.rs) are not under src/; per the
spec they are plain indexed tables, modelled as functions from the index
tuples used at the call sites in eval.rs.  `mobility` is indexed by
`(piece, attacked-square count)`; the count of any pseudo-mobility
bitboard is at most 64. -/
structure EvalTerms (E : Type) where
  piece_tables : Piece × Color × Square × Square → E
  mobility : Piece × Nat → E
  virtual_queen_mobility : Fin 28 → E
  passed_pawns : Color × Square × Square → E
  bishop_pair : E
  rook_on_open_file : E
  rook_on_semiopen_file : E

/-- `EvalTrace = EvalTerms<i16>`: signed feature counts.  On any board a
single entry receives at most 64 paired writes, far inside the i16 range,
so `Int` is exact here. -/
abbrev EvalTrace := EvalTerms Int

/-- `EvalWeights = EvalTerms<PhasedEval>`. -/
abbrev EvalWeights := EvalTerms PhasedEval

/-- `EvalTrace::default()`: all counts zero. -/
def traceDefault : EvalTrace :=
  { piece_tables := fun _ => 0
    mobility := fun _ => 0
    virtual_queen_mobility := fun _ => 0
    passed_pawns := fun _ => 0
    bishop_pair := 0
    rook_on_open_file := 0
    rook_on_semiopen_file := 0 }

/-- Modelled from the spec: trace.rs is not under src/.  `TraceTarget` is
the polymorphic trace-sink capability; `trace` applies a mutation of the
recorded `EvalTrace` to the sink state. -/
structure TraceTarget (T : Type) where
  trace : (EvalTrace → EvalTrace) → T → T

/-- The no-op sink: the `TraceTarget` implementation for `()` used by
`evaluate`. -/
def noTrace : TraceTarget Unit := ⟨fun _ t => t⟩

/-- The recording sink: the `TraceTarget` implementation for `EvalTrace`
used by `evaluate_with_weights_and_trace`. -/
def recordTrace : TraceTarget EvalTrace := ⟨fun f t => f t⟩

/-- `sign` of eval.rs. -/
def sign (color : Color) : Int := if color = .White then 1 else -1

/-- `*terms.piece_tables.get_mut(..) += d`. -/
def bumpPst (t : EvalTrace) (i : Piece × Color × Square × Square) (d : Int) : EvalTrace :=
  { t with piece_tables := Function.update t.piece_tables i (t.piece_tables i + d) }

/-- `terms.mobility.get_mut(piece)[mobility] += d`. -/
def bumpMob (t : EvalTrace) (i : Piece × Nat) (d : Int) : EvalTrace :=
  { t with mobility := Function.update t.mobility i (t.mobility i + d) }

/-- `terms.virtual_queen_mobility[mobility] += d`. -/
def bumpVqm (t : EvalTrace) (i : Fin 28) (d : Int) : EvalTrace :=
  { t with virtual_queen_mobility :=
      Function.update t.virtual_queen_mobility i (t.virtual_queen_mobility i + d) }

/-- `*terms.passed_pawns.get_mut(..) += d`. -/
def bumpPassed (t : EvalTrace) (i : Color × Square × Square) (d : Int) : EvalTrace :=
  { t with passed_pawns := Function.update t.passed_pawns i (t.passed_pawns i + d) }

/-- The `(piece, square)` pairs visited by the per-color piece loops of
eval.rs: all pieces in cozy_chess order, squares in bitboard order. -/
def pieceSquareList (b : Board) (c : Color) : List (Piece × Square) :=
  Piece.ALL.flatMap (fun p =>
    (Bitboard.squaresList (b.colors c ∩ b.pieces p)).map (fun sq => (p, sq)))

/-- `EvalContext::psqt_terms`. -/
def psqt_terms {T : Type} (τ : TraceTarget T) (b : Board) (W : EvalWeights)
    (color : Color) (t : T) : PhasedEval × T :=
  let our_king := b.king color
  (pieceSquareList b color).foldl
    (fun acc ps =>
      (acc.1 + W.piece_tables (ps.1, color, our_king, ps.2),
       τ.trace (fun tm => bumpPst tm (ps.1, color, our_king, ps.2) (sign color)) acc.2))
    ((0, 0), t)

/-- The `approx_moves` match inside `EvalContext::mobility_terms`:
pseudo-mobility of one piece. -/
def approxMoves (b : Board) (color : Color) (piece : Piece) (square : Square) : Bitboard :=
  let our_pieces := b.colors color
  let occupied := b.occupied
  match piece with
  | .Pawn =>
      get_pawn_quiets square color occupied ∪
      (get_pawn_attacks square color ∩ b.colors color.other)
  | .Knight => get_knight_moves square \ our_pieces
  | .Bishop => get_bishop_moves square occupied \ our_pieces
  | .Rook => get_rook_moves square occupied \ our_pieces
  | .Queen =>
      (get_bishop_moves square occupied ∪ get_rook_moves square occupied) \ our_pieces
  | .King => get_king_moves square \ our_pieces

/-- `EvalContext::mobility_terms`. -/
def mobility_terms {T : Type} (τ : TraceTarget T) (b : Board) (W : EvalWeights)
    (color : Color) (t : T) : PhasedEval × T :=
  (pieceSquareList b color).foldl
    (fun acc ps =>
      let mobility := (approxMoves b color ps.1 ps.2).popcnt
      (acc.1 + W.mobility (ps.1, mobility),
       τ.trace (fun tm => bumpMob tm (ps.1, mobility) (sign color)) acc.2))
    ((0, 0), t)

/-- Squares aligned with `sq` along a rook or bishop line (the full queen
attack pattern on an empty board). -/
def queenAligned (sq : Square) : Bitboard :=
  Finset.univ.filter (fun s =>
    s ≠ sq ∧ (sameFile sq s ∨ sameRank sq s ∨ sameDiag sq s ∨ sameAntiDiag sq s))

set_option maxHeartbeats 1000000 in
theorem queenAligned_card : ∀ sq : Square, (queenAligned sq).card ≤ 27 := by
  unfold queenAligned
  decide

theorem rook_moves_subset (sq : Square) (occ : Bitboard) :
    get_rook_moves sq occ ⊆ queenAligned sq := by
  intro s hs
  simp only [get_rook_moves, queenAligned, Finset.mem_filter] at *
  tauto

theorem bishop_moves_subset (sq : Square) (occ : Bitboard) :
    get_bishop_moves sq occ ⊆ queenAligned sq := by
  intro s hs
  simp only [get_bishop_moves, queenAligned, Finset.mem_filter] at *
  tauto

/-- The virtual-queen-mobility index computed by
`EvalContext::virtual_queen_mobility`: population count of the
pseudo-queen-mobility bitboard from the king's square. -/
def vqmIndex (b : Board) (color : Color) : Nat :=
  ((get_bishop_moves (b.king color) b.occupied ∪
    get_rook_moves (b.king color) b.occupied) \ b.colors color).popcnt

/-- A queen placed on any square attacks at most 27 squares, so the
28-entry `virtual_queen_mobility` table access is in bounds. -/
theorem vqmIndex_lt (b : Board) (color : Color) : vqmIndex b color < 28 := by
  have hsub : ((get_bishop_moves (b.king color) b.occupied ∪
      get_rook_moves (b.king color) b.occupied) \ b.colors color) ⊆
      queenAligned (b.king color) := by
    intro s hs
    rcases Finset.mem_union.mp (Finset.mem_sdiff.mp hs).1 with h | h
    · exact bishop_moves_subset _ _ h
    · exact rook_moves_subset _ _ h
  have := Finset.card_le_card hsub
  have := queenAligned_card (b.king color)
  unfold vqmIndex Bitboard.popcnt
  omega

/-- `EvalContext::virtual_queen_mobility`. -/
def virtual_queen_mobility {T : Type} (τ : TraceTarget T) (b : Board)
    (W : EvalWeights) (color : Color) (t : T) : PhasedEval × T :=
  let idx : Fin 28 := ⟨vqmIndex b color, vqmIndex_lt b color⟩
  (W.virtual_queen_mobility idx,
   τ.trace (fun tm => bumpVqm tm idx (sign color)) t)

/-- File of a square as a `Fin 8` (for `Square::new`). -/
def Square.fileFin (sq : Square) : Fin 8 := ⟨sq.val % 8, by omega⟩

/-- `Rank::Eighth.relative_to(color)`: the promotion rank of the color. -/
def promotionRank : Color → Fin 8
  | .White => ⟨7, by omega⟩
  | .Black => ⟨0, by omega⟩

/-- The pawn's own forward span: squares strictly between the pawn and its
promotion square (`front_span` in `EvalContext::passed_pawn_terms`). -/
def pawnFrontSpan (color : Color) (pawn : Square) : Bitboard :=
  get_between_rays pawn (Square.new pawn.fileFin (promotionRank color))

/-- The passed-pawn blocker mask of `EvalContext::passed_pawn_terms`: the
pawn's forward span, plus, for each pawn-attack square, that square and its
forward span to the promotion rank. -/
def pawnBlockerMask (color : Color) (pawn : Square) : Bitboard :=
  (Bitboard.squaresList (get_pawn_attacks pawn color)).foldl
    (fun mask attack =>
      let telestop := Square.new attack.fileFin (promotionRank color)
      mask ∪ (get_between_rays attack telestop ∪ {attack}))
    (pawnFrontSpan color pawn)

/-- The `passed` condition of `EvalContext::passed_pawn_terms` for one pawn
of the given color: no enemy pawn in the blocker mask and no own pawn in
the forward span. -/
def pawnIsPassed (b : Board) (color : Color) (pawn : Square) : Prop :=
  let pawns := b.pieces .Pawn
  let our_pawns := b.colors color ∩ pawns
  let their_pawns := Bitboard.bbXor pawns our_pawns
  their_pawns ∩ pawnBlockerMask color pawn = ∅ ∧
  our_pawns ∩ pawnFrontSpan color pawn = ∅

instance (b : Board) (color : Color) (pawn : Square) :
    Decidable (pawnIsPassed b color pawn) := by
  unfold pawnIsPassed; infer_instance

/-- `EvalContext::passed_pawn_terms`. -/
def passed_pawn_terms {T : Type} (τ : TraceTarget T) (b : Board)
    (W : EvalWeights) (color : Color) (t : T) : PhasedEval × T :=
  let our_pawns := b.colors color ∩ b.pieces .Pawn
  let our_king := b.king color
  (Bitboard.squaresList our_pawns).foldl
    (fun acc pawn =>
      if pawnIsPassed b color pawn then
        (acc.1 + W.passed_pawns (color, our_king, pawn),
         τ.trace (fun tm => bumpPassed tm (color, our_king, pawn) (sign color)) acc.2)
      else acc)
    ((0, 0), t)

/-- The branch taken by the per-rook `if`/`else if` of
`EvalContext::rook_on_open_file_terms`. -/
inductive RookFileStatus where
  | openFile
  | semiOpenFile
  | closedFile
deriving DecidableEq, Repr

/-- Which rook-file branch eval.rs takes for a rook of `color` on `rook`:
open when the file holds no pawn at all, else semi-open when it holds no
own pawn, else closed. -/
def rookFileStatus (b : Board) (color : Color) (rook : Square) : RookFileStatus :=
  let pawns := b.pieces .Pawn
  let our_pawns := b.colors color ∩ pawns
  let file_bb := fileBitboard rook.file
  if file_bb ∩ pawns = ∅ then .openFile
  else if file_bb ∩ our_pawns = ∅ then .semiOpenFile
  else .closedFile

/-- The weight the rook-file term adds for one rook. -/
def rookBonus (W : EvalWeights) (b : Board) (color : Color) (rook : Square) : PhasedEval :=
  match rookFileStatus b color rook with
  | .openFile => W.rook_on_open_file
  | .semiOpenFile => W.rook_on_semiopen_file
  | .closedFile => (0, 0)

/-- `EvalContext::rook_on_open_file_terms`. -/
def rook_on_open_file_terms {T : Type} (τ : TraceTarget T) (b : Board)
    (W : EvalWeights) (color : Color) (t : T) : PhasedEval × T :=
  (Bitboard.squaresList (b.colors color ∩ b.pieces .Rook)).foldl
    (fun acc rook =>
      match rookFileStatus b color rook with
      | .openFile =>
          (acc.1 + W.rook_on_open_file,
           τ.trace (fun tm =>
             { tm with rook_on_open_file := tm.rook_on_open_file + sign color }) acc.2)
      | .semiOpenFile =>
          (acc.1 + W.rook_on_semiopen_file,
           τ.trace (fun tm =>
             { tm with rook_on_semiopen_file := tm.rook_on_semiopen_file + sign color }) acc.2)
      | .closedFile => acc)
    ((0, 0), t)

/-- `EvalContext::bishop_pair_terms`. -/
def bishop_pair_terms {T : Type} (τ : TraceTarget T) (b : Board)
    (W : EvalWeights) (color : Color) (t : T) : PhasedEval × T :=
  if 2 ≤ (b.colors color ∩ b.pieces .Bishop).popcnt then
    (W.bishop_pair,
     τ.trace (fun tm => { tm with bishop_pair := tm.bishop_pair + sign color }) t)
  else ((0, 0), t)

/-- The six term groups of `EvalContext::eval`, White minus Black, with the
trace sink threaded through in the source's evaluation order: the
un-interpolated `PhasedEval` score. -/
def evalPhased {T : Type} (τ : TraceTarget T) (b : Board) (W : EvalWeights)
    (t : T) : PhasedEval × T :=
  let pw := psqt_terms τ b W .White t
  let pb := psqt_terms τ b W .Black pw.2
  let mw := mobility_terms τ b W .White pb.2
  let mb := mobility_terms τ b W .Black mw.2
  let vw := virtual_queen_mobility τ b W .White mb.2
  let vb := virtual_queen_mobility τ b W .Black vw.2
  let sw := passed_pawn_terms τ b W .White vb.2
  let sb := passed_pawn_terms τ b W .Black sw.2
  let rw := rook_on_open_file_terms τ b W .White sb.2
  let rb := rook_on_open_file_terms τ b W .Black rw.2
  let cw := bishop_pair_terms τ b W .White rb.2
  let cb := bishop_pair_terms τ b W .Black cw.2
  ((pw.1 - pb.1) + (mw.1 - mb.1) + (vw.1 - vb.1) + (sw.1 - sb.1) +
     (rw.1 - rb.1) + (cw.1 - cb.1),
   cb.2)

/-- The interpolated `i32` score of `EvalContext::eval`
(`(eval.0*(256-phase) + eval.1*phase) / 256`, Rust `i32` division). -/
def interpolated (b : Board) (e : PhasedEval) : Int :=
  let phase : Int := (game_phase b : Int)
  (e.1 * ((MAX_PHASE : Int) - phase) + e.2 * phase).tdiv (MAX_PHASE : Int)

/-- `EvalContext::eval`: interpolate by phase, narrow to i16 (`as i16`),
multiply by the side-to-move sign (i16 multiplication).  The `Eval` score
wrapper of the engine is not under src/ and is modelled as the plain
centipawn integer `Eval::cp` receives. -/
def evalFull {T : Type} (τ : TraceTarget T) (b : Board) (W : EvalWeights)
    (t : T) : Int × T :=
  let r := evalPhased τ b W t
  (wrap16 (wrap16 (interpolated b r.1) * sign b.side_to_move), r.2)

/-- `evaluate` of eval.rs.  The static `EVAL_WEIGHTS` table lives in
eval_consts.rs, which is not under src/; the weight table is therefore a
parameter here, and every theorem quantifies over it. -/
def evaluate (b : Board) (W : EvalWeights) : Int :=
  (evalFull noTrace b W ()).1

/-- `evaluate_with_weights_and_trace` of eval.rs. -/
def evaluate_with_weights_and_trace (b : Board) (W : EvalWeights) :
    Int × EvalTrace :=
  evalFull recordTrace b W traceDefault

/-- The dot product of a recorded trace against a weight table: every
table entry's signed count times its weight, summed over every term.
Mobility entries are summed over counts 0..64, which covers every index a
64-square board can produce. -/
def dotTrace (t : EvalTrace) (W : EvalWeights) : PhasedEval :=
  (∑ i : Piece × Color × Square × Square, t.piece_tables i • W.piece_tables i) +
  (∑ i ∈ Finset.univ ×ˢ Finset.range 65, t.mobility i • W.mobility i) +
  (∑ i : Fin 28, t.virtual_queen_mobility i • W.virtual_queen_mobility i) +
  (∑ i : Color × Square × Square, t.passed_pawns i • W.passed_pawns i) +
  t.bishop_pair • W.bishop_pair +
  t.rook_on_open_file • W.rook_on_open_file +
  t.rook_on_semiopen_file • W.rook_on_semiopen_file

/-! ### Sequences of NNUE accumulator updates -/

/-- A well-formed reachable accumulator state: every cell is an i16 value
and the material count is a `usize` value. -/
def NnueState.Wf (st : NnueState) : Prop :=
  (∀ pe i, -32768 ≤ st.accumulator pe i ∧ st.accumulator pe i < 32768) ∧
  st.material < USIZE

instance (st : NnueState) : Decidable st.Wf := by
  unfold NnueState.Wf; infer_instance

/-- One call of the incremental-update API of `NnueState`. -/
inductive NnueOp where
  | add (color : Color) (piece : Piece) (square : Square)
  | sub (color : Color) (piece : Piece) (square : Square)

def NnueState.applyOp (m : Nnue) (st : NnueState) : NnueOp → NnueState
  | .add c p s => st.add m c p s
  | .sub c p s => st.sub m c p s

/-- A sequence of `add`/`sub` calls, applied in order. -/
def NnueState.applyOps (m : Nnue) (st : NnueState) (ops : List NnueOp) : NnueState :=
  ops.foldl (fun s op => s.applyOp m op) st

/-- The (color, piece, square) triples of the `add` calls, in order. -/
def addPayloads (ops : List NnueOp) : List (Color × Piece × Square) :=
  ops.filterMap (fun op => match op with
    | .add c p s => some (c, p, s)
    | .sub _ _ _ => none)

/-- The (color, piece, square) triples of the `sub` calls, in order. -/
def subPayloads (ops : List NnueOp) : List (Color × Piece × Square) :=
  ops.filterMap (fun op => match op with
    | .add _ _ _ => none
    | .sub c p s => some (c, p, s))

/-- The feature-transformer row entry a triple contributes to one
accumulator cell. -/
def ftRow (m : Nnue) (pe : Color) (i : Fin 32) (x : Color × Piece × Square) : Int :=
  m.ftWeight (featureFin pe x.1 x.2.1 x.2.2) i

/-- What a `usize` material count gains from one call. -/
def opMatDelta : NnueOp → Nat
  | .add _ p _ => VALUES p
  | .sub _ p _ => USIZE - VALUES p

/-! ### Board constructions and concrete positions -/

/-- The same position with only the side to move flipped. -/
def flipSideToMove (b : Board) : Board :=
  { b with side_to_move := b.side_to_move.other }

/-- Remove the piece `(c, p, sq)` from the board (the board with one fewer
piece; all other occupancy is unchanged). -/
def removePiece (b : Board) (c : Color) (p : Piece) (sq : Square) : Board :=
  { colorBB := Function.update b.colorBB c (b.colorBB c \ {sq})
    pieceBB := Function.update b.pieceBB p (b.pieceBB p \ {sq})
    side_to_move := b.side_to_move }

/-- The standard chess starting position. -/
def startBoard : Board where
  colorBB := fun c => match c with
    | .White => ((List.finRange 64).filter (fun s => s.val < 16)).toFinset
    | .Black => ((List.finRange 64).filter (fun s => 48 ≤ s.val)).toFinset
  pieceBB := fun p => match p with
    | .Pawn => ((List.finRange 64).filter (fun s =>
        (8 ≤ s.val ∧ s.val < 16) ∨ (48 ≤ s.val ∧ s.val < 56))).toFinset
    | .Knight => ([1, 6, 57, 62] : List Square).toFinset
    | .Bishop => ([2, 5, 58, 61] : List Square).toFinset
    | .Rook => ([0, 7, 56, 63] : List Square).toFinset
    | .Queen => ([3, 59] : List Square).toFinset
    | .King => ([4, 60] : List Square).toFinset
  side_to_move := .White

/-- Bare kings on e1 and e8, White to move. -/
def kingsBoard : Board where
  colorBB := fun c => match c with
    | .White => {4}
    | .Black => {60}
  pieceBB := fun p => match p with
    | .King => ({4, 60} : Finset Square)
    | _ => ∅
  side_to_move := .White

/-- Kings on e1/e8, a White pawn on e5, and the given extra Black pawns;
White to move. -/
def e5PawnBoard (extraBlackPawns : List Square) : Board where
  colorBB := fun c => match c with
    | .White => ({4, 36} : Finset Square)
    | .Black => insert 60 extraBlackPawns.toFinset
  pieceBB := fun p => match p with
    | .Pawn => insert 36 extraBlackPawns.toFinset
    | .King => ({4, 60} : Finset Square)
    | _ => ∅
  side_to_move := .White

/-- Kings on e1/e8 and a White rook on a1, White to move (for the rook-file
witness). -/
def rookBoard : Board where
  colorBB := fun c => match c with
    | .White => ({0, 4} : Finset Square)
    | .Black => {60}
  pieceBB := fun p => match p with
    | .Rook => {0}
    | .King => ({4, 60} : Finset Square)
    | _ => ∅
  side_to_move := .White

/-- An all-zero weight table (a concrete `EvalWeights` instance for
witnesses). -/
def zeroWeights : EvalWeights :=
  { piece_tables := fun _ => (0, 0)
    mobility := fun _ => (0, 0)
    virtual_queen_mobility := fun _ => (0, 0)
    passed_pawns := fun _ => (0, 0)
    bishop_pair := (0, 0)
    rook_on_open_file := (0, 0)
    rook_on_semiopen_file := (0, 0) }

/-- A small concrete NNUE model (for witnesses). -/
def witnessNnue : Nnue :=
  { ftWeight := fun f i => (f.val % 5 : Nat) + (i.val : Nat)
    ftBias := fun i => (i.val : Nat)
    l1Weight := fun _ j => (j.val % 3 : Nat)
    l1Bias := fun k => (k.val : Nat) }

/-- A concrete add/sub sequence netting to the empty board. -/
def witnessOps : List NnueOp :=
  [.add .White .Pawn 12, .add .Black .Queen 59, .sub .Black .Queen 59, .sub .White .Pawn 12]

/-! ### Arithmetic lemmas -/

theorem wrap16_congr {a b : Int} (h : a % 65536 = b % 65536) :
    wrap16 a = wrap16 b := by
  unfold wrap16; omega

theorem wrap16_add_left (a b : Int) : wrap16 (wrap16 a + b) = wrap16 (a + b) := by
  unfold wrap16; omega

theorem wrap16_sub_left (a b : Int) : wrap16 (wrap16 a - b) = wrap16 (a - b) := by
  unfold wrap16; omega

theorem wrap16_eq_self {a : Int} (h1 : -32768 ≤ a) (h2 : a < 32768) :
    wrap16 a = a := by
  unfold wrap16; omega

theorem wrap16_range (a : Int) : -32768 ≤ wrap16 a ∧ wrap16 a < 32768 := by
  unfold wrap16
  constructor <;> omega

theorem wrap16_wrap16 (a : Int) : wrap16 (wrap16 a) = wrap16 a :=
  wrap16_eq_self (wrap16_range a).1 (wrap16_range a).2

/-- Truncating division by 64 then by 127 is truncating division by
64*127 = 8128 (both divisors positive). -/
theorem tdiv_64_127 (x : Int) : (x.tdiv 64).tdiv 127 = x.tdiv 8128 := by
  have hnat : ∀ n : Nat, ((n : Int).tdiv 64).tdiv 127 = (n : Int).tdiv 8128 := by
    intro n
    have h64 : ((64 : Nat) : Int) = (64 : Int) := by norm_num
    have h127 : ((127 : Nat) : Int) = (127 : Int) := by norm_num
    have h8128 : ((8128 : Nat) : Int) = (8128 : Int) := by norm_num
    rw [← h64, ← h127, ← h8128, ← Int.ofNat_tdiv, ← Int.ofNat_tdiv, ← Int.ofNat_tdiv,
      Nat.div_div_eq_div_mul]
  rcases Int.eq_nat_or_neg x with ⟨n, rfl | rfl⟩
  · exact hnat n
  · rw [Int.neg_tdiv, Int.neg_tdiv, Int.neg_tdiv, hnat n]

theorem Color.other_other (c : Color) : c.other.other = c := by
  cases c <;> rfl

/-! ### Fold lemmas -/

/-- The first component of a fold over (score, sink) pairs whose score step
ignores the sink is the pure score fold. -/
theorem foldl_pair_fst {α β T : Type} (step : (β × T) → α → (β × T)) (f : β → α → β)
    (h : ∀ p x, (step p x).1 = f p.1 x) :
    ∀ (l : List α) (p : β × T), (l.foldl step p).1 = l.foldl f p.1
  | [], _ => rfl
  | x :: l, p => by
      rw [List.foldl_cons, List.foldl_cons, foldl_pair_fst step f h l, h]

/-- A fold that only accumulates is the sum of the per-element values. -/
theorem foldl_add_eq_sum {α M : Type} [AddCommMonoid M] (g : α → M) :
    ∀ (l : List α) (e : M), l.foldl (fun acc x => acc + g x) e = e + (l.map g).sum
  | [], e => by simp
  | x :: l, e => by
      rw [List.foldl_cons, foldl_add_eq_sum g l, List.map_cons, List.sum_cons, add_assoc]

/-! ### The score does not depend on the trace sink -/

theorem psqt_terms_fst {T : Type} (τ : TraceTarget T) (b : Board) (W : EvalWeights)
    (c : Color) (t : T) :
    (psqt_terms τ b W c t).1 = (psqt_terms noTrace b W c ()).1 := by
  simp only [psqt_terms]
  rw [foldl_pair_fst _ (fun e ps => e + W.piece_tables (ps.1, c, b.king c, ps.2))
      (fun p x => rfl),
    foldl_pair_fst _ (fun e ps => e + W.piece_tables (ps.1, c, b.king c, ps.2))
      (fun p x => rfl)]

theorem mobility_terms_fst {T : Type} (τ : TraceTarget T) (b : Board) (W : EvalWeights)
    (c : Color) (t : T) :
    (mobility_terms τ b W c t).1 = (mobility_terms noTrace b W c ()).1 := by
  simp only [mobility_terms]
  rw [foldl_pair_fst _ (fun e ps => e + W.mobility (ps.1, (approxMoves b c ps.1 ps.2).popcnt))
      (fun p x => rfl),
    foldl_pair_fst _ (fun e ps => e + W.mobility (ps.1, (approxMoves b c ps.1 ps.2).popcnt))
      (fun p x => rfl)]

theorem virtual_queen_mobility_fst {T : Type} (τ : TraceTarget T) (b : Board)
    (W : EvalWeights) (c : Color) (t : T) :
    (virtual_queen_mobility τ b W c t).1 = (virtual_queen_mobility noTrace b W c ()).1 := rfl

theorem passed_pawn_terms_fst {T : Type} (τ : TraceTarget T) (b : Board) (W : EvalWeights)
    (c : Color) (t : T) :
    (passed_pawn_terms τ b W c t).1 = (passed_pawn_terms noTrace b W c ()).1 := by
  simp only [passed_pawn_terms]
  rw [foldl_pair_fst _
      (fun e pawn => if pawnIsPassed b c pawn
        then e + W.passed_pawns (c, b.king c, pawn) else e)
      (fun p x => by dsimp only; split <;> rfl),
    foldl_pair_fst _
      (fun e pawn => if pawnIsPassed b c pawn
        then e + W.passed_pawns (c, b.king c, pawn) else e)
      (fun p x => by dsimp only; split <;> rfl)]

theorem rook_on_open_file_terms_fst {T : Type} (τ : TraceTarget T) (b : Board)
    (W : EvalWeights) (c : Color) (t : T) :
    (rook_on_open_file_terms τ b W c t).1 = (rook_on_open_file_terms noTrace b W c ()).1 := by
  simp only [rook_on_open_file_terms]
  rw [foldl_pair_fst _ (fun e r => e + rookBonus W b c r)
      (fun p x => by
        dsimp only [rookBonus]
        cases rookFileStatus b c x <;> simp),
    foldl_pair_fst _ (fun e r => e + rookBonus W b c r)
      (fun p x => by
        dsimp only [rookBonus]
        cases rookFileStatus b c x <;> simp)]

theorem bishop_pair_terms_fst {T : Type} (τ : TraceTarget T) (b : Board)
    (W : EvalWeights) (c : Color) (t : T) :
    (bishop_pair_terms τ b W c t).1 = (bishop_pair_terms noTrace b W c ()).1 := by
  unfold bishop_pair_terms
  split <;> rfl

theorem evalPhased_fst {T : Type} (τ : TraceTarget T) (b : Board) (W : EvalWeights)
    (t : T) :
    (evalPhased τ b W t).1 = (evalPhased noTrace b W ()).1 := by
  simp only [evalPhased]
  rw [psqt_terms_fst τ, psqt_terms_fst τ, mobility_terms_fst τ, mobility_terms_fst τ,
    virtual_queen_mobility_fst τ, virtual_queen_mobility_fst τ,
    passed_pawn_terms_fst τ, passed_pawn_terms_fst τ,
    rook_on_open_file_terms_fst τ, rook_on_open_file_terms_fst τ,
    bishop_pair_terms_fst τ, bishop_pair_terms_fst τ]

/-! ### Dot product bump lemmas -/

/-- Bumping one entry of the count function shifts a count-weighted sum by
the bump times that entry's weight. -/
theorem sum_update_smul {ι : Type} [DecidableEq ι] (s : Finset ι) (f : ι → Int)
    (g : ι → PhasedEval) (a : ι) (d : Int) (ha : a ∈ s) :
    ∑ i ∈ s, Function.update f a (f a + d) i • g i = (∑ i ∈ s, f i • g i) + d • g a := by
  have hpt : ∀ i, Function.update f a (f a + d) i • g i =
      Function.update (fun j => f j • g j) a ((f a + d) • g a) i := by
    intro i
    by_cases h : i = a
    · subst h; simp
    · simp [Function.update_noteq h]
  rw [Finset.sum_congr rfl (fun i _ => hpt i), Finset.sum_update_of_mem ha,
    Finset.sum_eq_sum_diff_singleton_add ha (fun j => f j • g j), add_smul]
  abel

theorem dot_bumpPst (t : EvalTrace) (W : EvalWeights)
    (i : Piece × Color × Square × Square) (d : Int) :
    dotTrace (bumpPst t i d) W = dotTrace t W + d • W.piece_tables i := by
  unfold dotTrace bumpPst
  dsimp only
  rw [sum_update_smul Finset.univ t.piece_tables W.piece_tables i d (Finset.mem_univ i)]
  abel

theorem dot_bumpMob (t : EvalTrace) (W : EvalWeights) (i : Piece × Nat) (d : Int)
    (hm : i.2 < 65) :
    dotTrace (bumpMob t i d) W = dotTrace t W + d • W.mobility i := by
  unfold dotTrace bumpMob
  dsimp only
  rw [sum_update_smul (Finset.univ ×ˢ Finset.range 65) t.mobility W.mobility i d
    (Finset.mem_product.mpr ⟨Finset.mem_univ i.1, Finset.mem_range.mpr hm⟩)]
  abel

theorem dot_bumpVqm (t : EvalTrace) (W : EvalWeights) (i : Fin 28) (d : Int) :
    dotTrace (bumpVqm t i d) W = dotTrace t W + d • W.virtual_queen_mobility i := by
  unfold dotTrace bumpVqm
  dsimp only
  rw [sum_update_smul Finset.univ t.virtual_queen_mobility W.virtual_queen_mobility i d
    (Finset.mem_univ i)]
  abel

theorem dot_bumpPassed (t : EvalTrace) (W : EvalWeights) (i : Color × Square × Square)
    (d : Int) :
    dotTrace (bumpPassed t i d) W = dotTrace t W + d • W.passed_pawns i := by
  unfold dotTrace bumpPassed
  dsimp only
  rw [sum_update_smul Finset.univ t.passed_pawns W.passed_pawns i d (Finset.mem_univ i)]
  abel

theorem dot_bumpBishopPair (t : EvalTrace) (W : EvalWeights) (d : Int) :
    dotTrace { t with bishop_pair := t.bishop_pair + d } W =
      dotTrace t W + d • W.bishop_pair := by
  unfold dotTrace
  dsimp only
  rw [add_smul]
  abel

theorem dot_bumpRookOpen (t : EvalTrace) (W : EvalWeights) (d : Int) :
    dotTrace { t with rook_on_open_file := t.rook_on_open_file + d } W =
      dotTrace t W + d • W.rook_on_open_file := by
  unfold dotTrace
  dsimp only
  rw [add_smul]
  abel

theorem dot_bumpRookSemi (t : EvalTrace) (W : EvalWeights) (d : Int) :
    dotTrace { t with rook_on_semiopen_file := t.rook_on_semiopen_file + d } W =
      dotTrace t W + d • W.rook_on_semiopen_file := by
  unfold dotTrace
  dsimp only
  rw [add_smul]
  abel

theorem dotTrace_default (W : EvalWeights) : dotTrace traceDefault W = 0 := by
  unfold dotTrace traceDefault
  simp

theorem popcnt_le (bb : Bitboard) : bb.popcnt ≤ 64 := by
  have h := Finset.card_le_univ bb
  simpa [Bitboard.popcnt] using h

/-- Pairing invariant for one score/trace fold: if every step changes the
dot product by `s` times its score contribution, so does the whole fold. -/
theorem foldl_pair_dot (W : EvalWeights) (s : Int) {α : Type}
    (step : (PhasedEval × EvalTrace) → α → (PhasedEval × EvalTrace))
    (h : ∀ p x, dotTrace (step p x).2 W = dotTrace p.2 W + s • ((step p x).1 - p.1)) :
    ∀ (l : List α) (p : PhasedEval × EvalTrace),
      dotTrace (l.foldl step p).2 W = dotTrace p.2 W + s • ((l.foldl step p).1 - p.1)
  | [], p => by simp
  | x :: l, p => by
      rw [List.foldl_cons, foldl_pair_dot W s step h l (step p x), h p x, add_assoc,
        ← smul_add]
      have harr : (step p x).1 - p.1 + ((l.foldl step (step p x)).1 - (step p x).1) =
          (l.foldl step (step p x)).1 - p.1 := by abel
      rw [harr]

theorem psqt_terms_dot (b : Board) (W : EvalWeights) (c : Color) (t : EvalTrace) :
    dotTrace (psqt_terms recordTrace b W c t).2 W =
      dotTrace t W + sign c • (psqt_terms recordTrace b W c t).1 := by
  simp only [psqt_terms]
  rw [foldl_pair_dot W (sign c) _ (fun p x => by
    show dotTrace (bumpPst p.2 (x.1, c, b.king c, x.2) (sign c)) W = _
    rw [dot_bumpPst]
    congr 1
    rw [add_sub_cancel_left])]
  have h0 : (((0, 0) : PhasedEval), t).1 = (0 : PhasedEval) := rfl
  rw [h0, sub_zero]

theorem mobility_terms_dot (b : Board) (W : EvalWeights) (c : Color) (t : EvalTrace) :
    dotTrace (mobility_terms recordTrace b W c t).2 W =
      dotTrace t W + sign c • (mobility_terms recordTrace b W c t).1 := by
  simp only [mobility_terms]
  rw [foldl_pair_dot W (sign c) _ (fun p x => by
    show dotTrace (bumpMob p.2 (x.1, (approxMoves b c x.1 x.2).popcnt) (sign c)) W = _
    rw [dot_bumpMob _ _ _ _ (by have := popcnt_le (approxMoves b c x.1 x.2); omega)]
    congr 1
    rw [add_sub_cancel_left])]
  have h0 : (((0, 0) : PhasedEval), t).1 = (0 : PhasedEval) := rfl
  rw [h0, sub_zero]

theorem virtual_queen_mobility_dot (b : Board) (W : EvalWeights) (c : Color)
    (t : EvalTrace) :
    dotTrace (virtual_queen_mobility recordTrace b W c t).2 W =
      dotTrace t W + sign c • (virtual_queen_mobility recordTrace b W c t).1 := by
  simp only [virtual_queen_mobility]
  exact dot_bumpVqm t W ⟨vqmIndex b c, vqmIndex_lt b c⟩ (sign c)

theorem passed_pawn_terms_dot (b : Board) (W : EvalWeights) (c : Color) (t : EvalTrace) :
    dotTrace (passed_pawn_terms recordTrace b W c t).2 W =
      dotTrace t W + sign c • (passed_pawn_terms recordTrace b W c t).1 := by
  simp only [passed_pawn_terms]
  rw [foldl_pair_dot W (sign c) _ (fun p x => by
    by_cases hp : pawnIsPassed b c x
    · simp only [hp, if_true]
      show dotTrace (bumpPassed p.2 (c, b.king c, x) (sign c)) W = _
      rw [dot_bumpPassed]
      congr 1
      rw [add_sub_cancel_left]
    · simp [hp])]
  have h0 : (((0, 0) : PhasedEval), t).1 = (0 : PhasedEval) := rfl
  rw [h0, sub_zero]

theorem rook_on_open_file_terms_dot (b : Board) (W : EvalWeights) (c : Color)
    (t : EvalTrace) :
    dotTrace (rook_on_open_file_terms recordTrace b W c t).2 W =
      dotTrace t W + sign c • (rook_on_open_file_terms recordTrace b W c t).1 := by
  simp only [rook_on_open_file_terms]
  rw [foldl_pair_dot W (sign c) _ (fun p x => by
    cases hs : rookFileStatus b c x
    · simp only [hs]
      show dotTrace { p.2 with rook_on_open_file := p.2.rook_on_open_file + sign c } W = _
      rw [dot_bumpRookOpen]
      congr 1
      rw [add_sub_cancel_left]
    · simp only [hs]
      show dotTrace
        { p.2 with rook_on_semiopen_file := p.2.rook_on_semiopen_file + sign c } W = _
      rw [dot_bumpRookSemi]
      congr 1
      rw [add_sub_cancel_left]
    · simp [hs])]
  have h0 : (((0, 0) : PhasedEval), t).1 = (0 : PhasedEval) := rfl
  rw [h0, sub_zero]

theorem bishop_pair_terms_dot (b : Board) (W : EvalWeights) (c : Color) (t : EvalTrace) :
    dotTrace (bishop_pair_terms recordTrace b W c t).2 W =
      dotTrace t W + sign c • (bishop_pair_terms recordTrace b W c t).1 := by
  unfold bishop_pair_terms
  split
  · show dotTrace { t with bishop_pair := t.bishop_pair + sign c } W = _
    rw [dot_bumpBishopPair]
  · simp

/-- Pairing for the whole evaluator: the recorded trace, dotted against the
weights, gains exactly the accumulated White-minus-Black phased score. -/
theorem evalPhased_dot (b : Board) (W : EvalWeights) (t : EvalTrace) :
    dotTrace (evalPhased recordTrace b W t).2 W =
      dotTrace t W + (evalPhased recordTrace b W t).1 := by
  simp only [evalPhased]
  rw [bishop_pair_terms_dot, bishop_pair_terms_dot, rook_on_open_file_terms_dot,
    rook_on_open_file_terms_dot, passed_pawn_terms_dot, passed_pawn_terms_dot,
    virtual_queen_mobility_dot, virtual_queen_mobility_dot, mobility_terms_dot,
    mobility_terms_dot, psqt_terms_dot, psqt_terms_dot]
  simp only [show sign Color.White = 1 from rfl, show sign Color.Black = (-1 : Int) from rfl,
    one_smul]
  have hneg : ∀ x : PhasedEval, (-1 : Int) • x = -x := fun x => neg_one_smul Int x
  rw [hneg, hneg, hneg, hneg, hneg, hneg]
  abel

/-! ### NNUE state lemmas -/

theorem NnueState.ext' {s1 s2 : NnueState} (h1 : s1.accumulator = s2.accumulator)
    (h2 : s1.material = s2.material) : s1 = s2 := by
  cases s1; cases s2; simp_all

theorem VALUES_le (p : Piece) : VALUES p ≤ USIZE := by
  have h8 : VALUES p ≤ 8 := by cases p <;> simp [VALUES]
  have : (8 : Nat) ≤ USIZE := by unfold USIZE; norm_num
  omega

theorem applyOps_acc (m : Nnue) :
    ∀ (ops : List NnueOp) (st : NnueState),
      (∀ pe i, -32768 ≤ st.accumulator pe i ∧ st.accumulator pe i < 32768) →
      ∀ (pe : Color) (i : Fin 32),
      (st.applyOps m ops).accumulator pe i =
        wrap16 (st.accumulator pe i + ((addPayloads ops).map (ftRow m pe i)).sum
          - ((subPayloads ops).map (ftRow m pe i)).sum)
  | [], st, hst, pe, i => by
      simp only [NnueState.applyOps, List.foldl_nil, addPayloads, subPayloads,
        List.filterMap_nil, List.map_nil, List.sum_nil, add_zero, sub_zero]
      exact (wrap16_eq_self (hst pe i).1 (hst pe i).2).symm
  | op :: ops, st, hst, pe, i => by
      have hstep : st.applyOps m (op :: ops) = (st.applyOp m op).applyOps m ops := by
        simp [NnueState.applyOps]
      rw [hstep]
      cases op with
      | add c p s =>
          dsimp only [NnueState.applyOp]
          have hwf : ∀ pe i, -32768 ≤ (st.add m c p s).accumulator pe i ∧
              (st.add m c p s).accumulator pe i < 32768 := by
            intro pe i
            simp only [NnueState.add]
            exact wrap16_range _
          rw [applyOps_acc m ops (st.add m c p s) hwf pe i]
          simp only [NnueState.add, addPayloads, subPayloads, List.filterMap_cons,
            List.map_cons, List.sum_cons]
          rw [add_sub_assoc, wrap16_add_left]
          apply congrArg wrap16
          show st.accumulator pe i + ftRow m pe i (c, p, s) + _ = _
          ring
      | sub c p s =>
          dsimp only [NnueState.applyOp]
          have hwf : ∀ pe i, -32768 ≤ (st.sub m c p s).accumulator pe i ∧
              (st.sub m c p s).accumulator pe i < 32768 := by
            intro pe i
            simp only [NnueState.sub]
            exact wrap16_range _
          rw [applyOps_acc m ops (st.sub m c p s) hwf pe i]
          simp only [NnueState.sub, addPayloads, subPayloads, List.filterMap_cons,
            List.map_cons, List.sum_cons]
          rw [add_sub_assoc, wrap16_add_left]
          apply congrArg wrap16
          show st.accumulator pe i - ftRow m pe i (c, p, s) + _ = _
          ring

theorem applyOps_material (m : Nnue) :
    ∀ (ops : List NnueOp) (st : NnueState), st.material < USIZE →
      (st.applyOps m ops).material = (st.material + (ops.map opMatDelta).sum) % USIZE
  | [], st, h => by
      simp only [NnueState.applyOps, List.foldl_nil, List.map_nil, List.sum_nil, add_zero]
      exact (Nat.mod_eq_of_lt h).symm
  | op :: ops, st, h => by
      have hstep : st.applyOps m (op :: ops) = (st.applyOp m op).applyOps m ops := by
        simp [NnueState.applyOps]
      have husize : 0 < USIZE := by unfold USIZE; norm_num
      rw [hstep]
      cases op with
      | add c p s =>
          dsimp only [NnueState.applyOp]
          have hlt : (st.add m c p s).material < USIZE := Nat.mod_lt _ husize
          rw [applyOps_material m ops (st.add m c p s) hlt]
          simp only [NnueState.add, List.map_cons, List.sum_cons, opMatDelta]
          rw [Nat.mod_add_mod, add_assoc]
      | sub c p s =>
          dsimp only [NnueState.applyOp]
          have hlt : (st.sub m c p s).material < USIZE := Nat.mod_lt _ husize
          rw [applyOps_material m ops (st.sub m c p s) hlt]
          simp only [NnueState.sub, List.map_cons, List.sum_cons, opMatDelta]
          rw [Nat.mod_add_mod, add_assoc]

theorem opMatDelta_sum :
    ∀ ops : List NnueOp,
      (ops.map opMatDelta).sum +
        ((subPayloads ops).map (fun x => VALUES x.2.1)).sum =
      ((addPayloads ops).map (fun x => VALUES x.2.1)).sum +
        (subPayloads ops).length * USIZE
  | [] => by simp [addPayloads, subPayloads]
  | op :: ops => by
      have ih := opMatDelta_sum ops
      cases op with
      | add c p s =>
          simp only [List.map_cons, List.sum_cons, opMatDelta, addPayloads, subPayloads,
            List.filterMap_cons] at *
          omega
      | sub c p s =>
          have hv := VALUES_le p
          simp only [List.map_cons, List.sum_cons, opMatDelta, addPayloads, subPayloads,
            List.filterMap_cons, List.length_cons] at *
          rw [Nat.add_mul, one_mul]
          have hc : (USIZE - VALUES p) + VALUES p = USIZE := by omega
          omega

/-! ### Claim theorems -/

/-- C7: the NNUE feature index satisfies the perspective symmetry
`feature(White, color, piece, sq) = feature(Black, !color, piece,
flip_rank(sq))`, and every feature index lies in `[0, 768)` following the
layout `(color*6 + piece)*64 + square`. -/
theorem feature_perspective_symmetry_and_range :
    (∀ (c : Color) (p : Piece) (sq : Square),
      feature .White c p sq = feature .Black c.other p sq.flipRank) ∧
    (∀ (perspective c : Color) (p : Piece) (sq : Square),
      feature perspective c p sq < 768) :=
  ⟨by decide, fun perspective c p sq => feature_lt perspective c p sq⟩

/-- C5 counterexample: at the standard starting position `game_phase` does
not return 256 (it returns 0: the code's phase scale is inverted relative
to the spec sentence). -/
theorem game_phase_start_not_256 : game_phase startBoard ≠ 256 := by decide

/-- C5 amended: `game_phase` returns 0 at the starting position and 256
with only kings on the board; in this code 0 selects the pure-midgame end
of the interpolation (`eval.0`) and 256 the pure-endgame end. -/
theorem game_phase_start_eq_zero :
    game_phase startBoard = 0 ∧ game_phase kingsBoard = 256 := by
  constructor <;> decide

/-- C1: replaying the recorded trace against the weight table (summing
signed count times weight over every term) reproduces exactly the
un-interpolated `PhasedEval` score the evaluator accumulated, for every
board and every weight table. -/
theorem trace_weight_pairing (b : Board) (W : EvalWeights) :
    dotTrace (evaluate_with_weights_and_trace b W).2 W =
      (evalPhased recordTrace b W traceDefault).1 := by
  have h : (evaluate_with_weights_and_trace b W).2 =
      (evalPhased recordTrace b W traceDefault).2 := rfl
  rw [h, evalPhased_dot, dotTrace_default, zero_add]

/-- C10: the untraced evaluator returns exactly the score component of the
traced evaluator, for every board and weight table: tracing never changes
the evaluation. -/
theorem evaluate_eq_traced (b : Board) (W : EvalWeights) :
    evaluate b W = (evaluate_with_weights_and_trace b W).1 := by
  unfold evaluate evaluate_with_weights_and_trace evalFull
  dsimp only
  rw [evalPhased_fst recordTrace]

/-- C2: flipping only the side to move negates the handcrafted evaluation:
the phased score and phase ignore the side to move, and the sign is applied
last.  The hypothesis excludes the single i16 value (-32768) whose negation
wraps in the final i16 multiply. -/
theorem evaluate_stm_antisymmetric (W : EvalWeights) (b : Board)
    (h : wrap16 (interpolated b (evalPhased noTrace b W ()).1) ≠ -32768) :
    evaluate (flipSideToMove b) W = - evaluate b W := by
  have hphased : evalPhased noTrace (flipSideToMove b) W () = evalPhased noTrace b W () :=
    rfl
  have hinterp : ∀ e : PhasedEval, interpolated (flipSideToMove b) e = interpolated b e :=
    fun e => rfl
  have hstm : (flipSideToMove b).side_to_move = b.side_to_move.other := rfl
  unfold evaluate evalFull
  dsimp only
  rw [hphased, hinterp, hstm]
  set I := interpolated b (evalPhased noTrace b W ()).1 with hI
  have hr := wrap16_range I
  cases hc : b.side_to_move with
  | White =>
      have h1 : sign Color.White.other = -1 := rfl
      have h2 : sign Color.White = 1 := rfl
      rw [h1, h2, mul_one, mul_neg_one, wrap16_wrap16]
      exact wrap16_eq_self (by omega) (by omega)
  | Black =>
      have h1 : sign Color.Black.other = 1 := rfl
      have h2 : sign Color.Black = -1 := rfl
      rw [h1, h2, mul_one, mul_neg_one, wrap16_wrap16]
      have hn : wrap16 (-wrap16 I) = -wrap16 I := wrap16_eq_self (by omega) (by omega)
      rw [hn, neg_neg]

/-- Witness for C2 at a concrete position and weight table. -/
theorem evaluate_stm_antisymmetric_witness :
    wrap16 (interpolated kingsBoard (evalPhased noTrace kingsBoard zeroWeights ()).1) ≠
      -32768 ∧
    evaluate (flipSideToMove kingsBoard) zeroWeights = - evaluate kingsBoard zeroWeights :=
  ⟨by decide, evaluate_stm_antisymmetric zeroWeights kingsBoard (by decide)⟩

/-- C3: any `add`/`sub` sequence whose added triples are exactly its
subtracted triples (as multisets) returns a fresh accumulator state to the
freshly constructed state bit for bit (both perspectives and the material
counter), and `sub(color, piece, square)` is the exact inverse of
`add(color, piece, square)` on any well-formed state. -/
theorem nnue_accumulator_consistency (m : Nnue)
    (hbias : ∀ i, -32768 ≤ m.ftBias i ∧ m.ftBias i < 32768)
    (ops : List NnueOp)
    (hnet : (addPayloads ops).Perm (subPayloads ops))
    (st : NnueState) (hst : st.Wf)
    (color : Color) (piece : Piece) (square : Square) :
    (m.new_state).applyOps m ops = m.new_state ∧
    (st.add m color piece square).sub m color piece square = st := by
  constructor
  · have hwf0 : ∀ pe i, -32768 ≤ (m.new_state).accumulator pe i ∧
        (m.new_state).accumulator pe i < 32768 := by
      intro pe i
      simpa [Nnue.new_state] using hbias i
    apply NnueState.ext'
    · funext pe i
      rw [applyOps_acc m ops m.new_state hwf0 pe i]
      have hsum : ((addPayloads ops).map (ftRow m pe i)).sum =
          ((subPayloads ops).map (ftRow m pe i)).sum :=
        (hnet.map (ftRow m pe i)).sum_eq
      rw [hsum, add_sub_cancel_right]
      exact wrap16_eq_self (hwf0 pe i).1 (hwf0 pe i).2
    · have hm0 : (m.new_state).material = 0 := rfl
      rw [applyOps_material m ops m.new_state (by rw [hm0]; unfold USIZE; norm_num)]
      have hsum := opMatDelta_sum ops
      have hAS : ((addPayloads ops).map (fun x => VALUES x.2.1)).sum =
          ((subPayloads ops).map (fun x => VALUES x.2.1)).sum :=
        (hnet.map (fun x => VALUES x.2.1)).sum_eq
      have hdelta : (ops.map opMatDelta).sum = (subPayloads ops).length * USIZE := by
        omega
      rw [hm0, zero_add, hdelta, Nat.mul_mod_left]
  · apply NnueState.ext'
    · funext pe i
      show wrap16 (wrap16 (st.accumulator pe i + ftRow m pe i (color, piece, square)) -
        ftRow m pe i (color, piece, square)) = st.accumulator pe i
      rw [wrap16_sub_left, add_sub_cancel_right]
      exact wrap16_eq_self (hst.1 pe i).1 (hst.1 pe i).2
    · show ((st.material + VALUES piece) % USIZE + (USIZE - VALUES piece)) % USIZE =
        st.material
      rw [Nat.mod_add_mod]
      have hv := VALUES_le piece
      have harith : st.material + VALUES piece + (USIZE - VALUES piece) =
          st.material + USIZE := by omega
      rw [harith, Nat.add_mod_right]
      exact Nat.mod_eq_of_lt hst.2

/-- Witness for C3 at a concrete model, sequence and state. -/
theorem nnue_accumulator_consistency_witness :
    (witnessNnue.new_state).applyOps witnessNnue witnessOps = witnessNnue.new_state ∧
    ((witnessNnue.new_state).add witnessNnue .White .Knight 5).sub witnessNnue
      .White .Knight 5 = witnessNnue.new_state :=
  nnue_accumulator_consistency witnessNnue (by decide) witnessOps (by decide)
    witnessNnue.new_state (by decide) .White .Knight 5

/-- C4: `NnueState::evaluate` clips each perspective to [0, 127], puts the
side to move first, picks bucket `min(15, material*16/76)`, runs that
bucket's linear layer, and returns `output*203` divided by `64*127` in
truncating integer division: it equals the forward pass written from the
spec's words. -/
theorem nnue_evaluate_refines_spec (m : Nnue) (st : NnueState) (stm : Color) :
    NnueState.evaluate m st stm = NnueState.evaluateSpec m st stm := by
  unfold NnueState.evaluate NnueState.evaluateSpec Nnue.l1Activate clipped_relu
  dsimp only
  rw [foldl_add_eq_sum, ← Fin.sum_univ_def]
  have hclip : ∀ x : Int, min (max x ((0 : Int))) ACTIVATION_RANGE =
      max 0 (min ACTIVATION_RANGE x) := by
    intro x
    unfold ACTIVATION_RANGE
    omega
  have hXY :
      (m.l1Bias ⟨min 15 (st.material * 16 / 76), by omega⟩ +
        ∑ j : Fin 64, m.l1Weight ⟨min 15 (st.material * 16 / 76), by omega⟩ j *
          (if h : j.val < 32 then min (max (st.accumulator stm ⟨j.val, h⟩) 0) ACTIVATION_RANGE
           else min (max (st.accumulator stm.other ⟨j.val - 32, by omega⟩) 0) ACTIVATION_RANGE)) =
      (m.l1Bias ⟨min 15 (st.material * 16 / 76), by omega⟩ +
        ∑ j : Fin 64, m.l1Weight ⟨min 15 (st.material * 16 / 76), by omega⟩ j *
          (if h : j.val < 32 then max 0 (min ACTIVATION_RANGE (st.accumulator stm ⟨j.val, h⟩))
           else max 0 (min ACTIVATION_RANGE (st.accumulator stm.other ⟨j.val - 32, by omega⟩)))) := by
    congr 1
    apply Finset.sum_congr rfl
    intro j _
    congr 1
    by_cases h : j.val < 32
    · simp only [h, dif_pos]
      exact hclip _
    · simp only [h, dif_neg, not_false_iff]
      exact hclip _
  rw [hXY]
  have hdiv : ∀ x : Int, ((x * OUTPUT_SCALE).tdiv WEIGHT_SCALE).tdiv ACTIVATION_RANGE =
      (x * OUTPUT_SCALE).tdiv (WEIGHT_SCALE * ACTIVATION_RANGE) := by
    intro x
    unfold OUTPUT_SCALE WEIGHT_SCALE ACTIVATION_RANGE
    rw [tdiv_64_127]
    norm_num
  exact hdiv _

/-- C6: `game_phase` always lies in [0, 256] (it is a `Nat`, and never
exceeds 256, saturating even when piece counts exceed the opening
baseline), and removing one non-pawn, non-king piece never decreases
it. -/
theorem game_phase_bounds_and_monotone :
    ∀ b : Board, game_phase b ≤ 256 ∧
      ∀ (c : Color) (p : Piece) (sq : Square), p ≠ .Pawn → p ≠ .King →
        sq ∈ b.pieces p → game_phase b ≤ game_phase (removePiece b c p sq) := by
  have hval : ∀ b : Board, game_phase b =
      ((24 - ((b.pieces .Pawn).popcnt * 0 + (b.pieces .Knight).popcnt * 1 +
        (b.pieces .Bishop).popcnt * 1 + (b.pieces .Rook).popcnt * 2 +
        (b.pieces .Queen).popcnt * 4)) * 256 + 12) / 24 := by
    intro b
    rfl
  have hmono : ∀ i1 i2 : Nat, i2 ≤ i1 →
      ((24 - i1) * 256 + 12) / 24 ≤ ((24 - i2) * 256 + 12) / 24 := by
    intro i1 i2 h
    apply Nat.div_le_div_right
    have : 24 - i1 ≤ 24 - i2 := by omega
    omega
  intro b
  constructor
  · rw [hval b]
    have h24 : (24 - ((b.pieces .Pawn).popcnt * 0 + (b.pieces .Knight).popcnt * 1 +
        (b.pieces .Bishop).popcnt * 1 + (b.pieces .Rook).popcnt * 2 +
        (b.pieces .Queen).popcnt * 4)) ≤ 24 := Nat.sub_le _ _
    calc ((24 - _) * 256 + 12) / 24 ≤ (24 * 256 + 12) / 24 := by
          apply Nat.div_le_div_right
          omega
      _ = 256 := by norm_num
  · intro c p sq hp hk hmem
    rw [hval b, hval (removePiece b c p sq)]
    have hle : ∀ p2 : Piece, ((removePiece b c p sq).pieces p2).popcnt ≤
        (b.pieces p2).popcnt := by
      intro p2
      show (Function.update b.pieceBB p (b.pieceBB p \ {sq}) p2).card ≤ (b.pieceBB p2).card
      rw [Function.update_apply]
      split
      · next h =>
          subst h
          exact Finset.card_le_card Finset.sdiff_subset
      · exact le_rfl
    apply hmono
    have h1 := hle .Pawn
    have h2 := hle .Knight
    have h3 := hle .Bishop
    have h4 := hle .Rook
    have h5 := hle .Queen
    omega

/-- Witness for C6 at the starting position, removing the knight on b1. -/
theorem game_phase_bounds_and_monotone_witness :
    game_phase startBoard ≤ 256 ∧
    game_phase startBoard ≤ game_phase (removePiece startBoard .White .Knight 1) :=
  ⟨(game_phase_bounds_and_monotone startBoard).1,
   (game_phase_bounds_and_monotone startBoard).2 .White .Knight 1
     (by decide) (by decide) (by decide)⟩

/-- C8: a lone White pawn on e5 (square 36) with no other pawns is passed
and scores the passed-pawn weight; a Black pawn on e7 (52) or f6 (45) makes
it not passed; a Black pawn on d3 (19) leaves it passed. -/
theorem passed_pawn_cases :
    pawnIsPassed (e5PawnBoard []) .White 36 ∧
    ¬ pawnIsPassed (e5PawnBoard [52]) .White 36 ∧
    ¬ pawnIsPassed (e5PawnBoard [45]) .White 36 ∧
    pawnIsPassed (e5PawnBoard [19]) .White 36 ∧
    ∀ W : EvalWeights, (passed_pawn_terms noTrace (e5PawnBoard []) W .White ()).1 =
      W.passed_pawns (.White, 4, 36) := by
  refine ⟨by decide, by decide, by decide, by decide, ?_⟩
  intro W
  have h : (passed_pawn_terms noTrace (e5PawnBoard []) W .White ()).1 =
      ((0, 0) : PhasedEval) + W.passed_pawns (.White, 4, 36) := rfl
  have h0 : ((0, 0) : PhasedEval) = 0 := rfl
  rw [h, h0, zero_add]

/-- C9: per rook, the open-file branch is taken iff no pawn of either
color sits on the rook's file, the semi-open branch iff the file holds an
enemy pawn but no own pawn, and nothing is awarded iff an own pawn sits on
the file (the branches are mutually exclusive, open first); the term is
the sum of the per-rook bonuses.  The hypothesis says every pawn belongs
to one of the two colors (true of legal boards). -/
theorem rook_file_term_correct (b : Board) (c : Color) (r : Square) (W : EvalWeights)
    (hocc : ∀ sq ∈ b.pieces .Pawn, sq ∈ b.colors c ∨ sq ∈ b.colors c.other) :
    (rookFileStatus b c r = .openFile ↔ ∀ sq ∈ b.pieces .Pawn, sq.file ≠ r.file) ∧
    (rookFileStatus b c r = .semiOpenFile ↔
      ((∃ sq ∈ b.pieces .Pawn, sq ∈ b.colors c.other ∧ sq.file = r.file) ∧
       ∀ sq ∈ b.pieces .Pawn, sq ∈ b.colors c → sq.file ≠ r.file)) ∧
    (rookFileStatus b c r = .closedFile ↔
      ∃ sq ∈ b.pieces .Pawn, sq ∈ b.colors c ∧ sq.file = r.file) ∧
    (rook_on_open_file_terms noTrace b W c ()).1 =
      ((Bitboard.squaresList (b.colors c ∩ b.pieces .Rook)).map (rookBonus W b c)).sum := by
  have hempty : ∀ X : Bitboard,
      fileBitboard r.file ∩ X = ∅ ↔ ∀ sq ∈ X, sq.file ≠ r.file := by
    intro X
    rw [Finset.eq_empty_iff_forall_not_mem]
    constructor
    · intro h sq hsq hfile
      exact h sq (Finset.mem_inter.mpr
        ⟨Finset.mem_filter.mpr ⟨Finset.mem_univ sq, hfile⟩, hsq⟩)
    · intro h sq hsq
      rcases Finset.mem_inter.mp hsq with ⟨hf, hx⟩
      exact h sq hx (Finset.mem_filter.mp hf).2
  have hwitness : ∀ X : Bitboard, ¬(fileBitboard r.file ∩ X = ∅) →
      ∃ sq ∈ X, sq.file = r.file := by
    intro X hne
    obtain ⟨sq, hsq⟩ := Finset.nonempty_iff_ne_empty.mpr hne
    rcases Finset.mem_inter.mp hsq with ⟨hf, hx⟩
    exact ⟨sq, hx, (Finset.mem_filter.mp hf).2⟩
  have hterms : (rook_on_open_file_terms noTrace b W c ()).1 =
      ((Bitboard.squaresList (b.colors c ∩ b.pieces .Rook)).map (rookBonus W b c)).sum := by
    simp only [rook_on_open_file_terms]
    rw [foldl_pair_fst _ (fun e x => e + rookBonus W b c x) (fun p x => by
      dsimp only
      cases hx : rookFileStatus b c x <;> simp [rookBonus, hx, Prod.mk_zero_zero])]
    rw [foldl_add_eq_sum]
    have h0 : ((0, 0) : PhasedEval) = 0 := rfl
    rw [h0, zero_add]
  by_cases h1 : fileBitboard r.file ∩ b.pieces .Pawn = ∅
  · have hs : rookFileStatus b c r = .openFile := by
      unfold rookFileStatus
      simp [h1]
    rw [hs]
    have hall := (hempty (b.pieces .Pawn)).mp h1
    refine ⟨iff_of_true rfl hall, ?_, ?_, hterms⟩
    · simp only [reduceCtorEq, false_iff]
      rintro ⟨⟨sq, hsq, _, hfile⟩, _⟩
      exact hall sq hsq hfile
    · simp only [reduceCtorEq, false_iff]
      rintro ⟨sq, hsq, _, hfile⟩
      exact hall sq hsq hfile
  · by_cases h2 : fileBitboard r.file ∩ (b.colors c ∩ b.pieces .Pawn) = ∅
    · have hs : rookFileStatus b c r = .semiOpenFile := by
        unfold rookFileStatus
        simp [h1, h2]
      rw [hs]
      have hown := (hempty (b.colors c ∩ b.pieces .Pawn)).mp h2
      have hownfile : ∀ sq ∈ b.pieces .Pawn, sq ∈ b.colors c → sq.file ≠ r.file := by
        intro sq hsq hc
        exact hown sq (Finset.mem_inter.mpr ⟨hc, hsq⟩)
      have hexists : ∃ sq ∈ b.pieces .Pawn, sq ∈ b.colors c.other ∧ sq.file = r.file := by
        obtain ⟨sq, hsq, hfile⟩ := hwitness (b.pieces .Pawn) h1
        rcases hocc sq hsq with hc | hc
        · exact absurd hfile (hownfile sq hsq hc)
        · exact ⟨sq, hsq, hc, hfile⟩
      refine ⟨?_, iff_of_true rfl ⟨hexists, hownfile⟩, ?_, hterms⟩
      · simp only [reduceCtorEq, false_iff]
        intro hall
        obtain ⟨sq, hsq, _, hfile⟩ := hexists
        exact hall sq hsq hfile
      · simp only [reduceCtorEq, false_iff]
        rintro ⟨sq, hsq, hc, hfile⟩
        exact hownfile sq hsq hc hfile
    · have hs : rookFileStatus b c r = .closedFile := by
        unfold rookFileStatus
        simp [h1, h2]
      rw [hs]
      have hexists : ∃ sq ∈ b.pieces .Pawn, sq ∈ b.colors c ∧ sq.file = r.file := by
        obtain ⟨sq, hsq, hfile⟩ := hwitness (b.colors c ∩ b.pieces .Pawn) h2
        rcases Finset.mem_inter.mp hsq with ⟨hc, hp⟩
        exact ⟨sq, hp, hc, hfile⟩
      refine ⟨?_, ?_, iff_of_true rfl hexists, hterms⟩
      · simp only [reduceCtorEq, false_iff]
        intro hall
        obtain ⟨sq, hsq, _, hfile⟩ := hexists
        exact hall sq hsq hfile
      · simp only [reduceCtorEq, false_iff]
        rintro ⟨_, hownall⟩
        obtain ⟨sq, hsq, hc, hfile⟩ := hexists
        exact hownall sq hsq hc hfile

/-- Witness for C9: a White rook on a1 with no pawns anywhere. -/
theorem rook_file_term_correct_witness :
    (rookFileStatus rookBoard .White 0 = .openFile ↔
      ∀ sq ∈ rookBoard.pieces .Pawn, sq.file ≠ Square.file 0) ∧
    (rookFileStatus rookBoard .White 0 = .semiOpenFile ↔
      ((∃ sq ∈ rookBoard.pieces .Pawn,
          sq ∈ rookBoard.colors Color.White.other ∧ sq.file = Square.file 0) ∧
       ∀ sq ∈ rookBoard.pieces .Pawn, sq ∈ rookBoard.colors .White →
         sq.file ≠ Square.file 0)) ∧
    (rookFileStatus rookBoard .White 0 = .closedFile ↔
      ∃ sq ∈ rookBoard.pieces .Pawn,
        sq ∈ rookBoard.colors .White ∧ sq.file = Square.file 0) ∧
    (rook_on_open_file_terms noTrace rookBoard zeroWeights .White ()).1 =
      ((Bitboard.squaresList (rookBoard.colors .White ∩ rookBoard.pieces .Rook)).map
        (rookBonus zeroWeights rookBoard .White)).sum :=
  rook_file_term_correct rookBoard .White 0 zeroWeights (by decide)
